import Mathlib

/-
Verification of the db_bench benchmark driver (db/db_bench.cc).

The driver's pure control logic is embedded shallowly: the value generator
(class RandomGenerator), the key formatter (snprintf "%016d"), the write loop
of Benchmark::Write, the phase dispatcher of Benchmark::Run, the compaction
driver Benchmark::Compact, the reporting arithmetic of Benchmark::Stop and the
read loops of Benchmark::ReadSequential / Benchmark::ReadReverse.  The storage
engine behind the DB handle and the pseudo random source rand_ live outside
this file's source; their responses are abstracted as parameters (see Env).
-/

namespace DbBench

/-- Write order of a fill phase (Benchmark::Order). -/
inductive Order where
  | SEQUENTIAL
  | RANDOM
  deriving DecidableEq, Repr

/-- Database lifecycle state a write phase requires (Benchmark::DBState). -/
inductive DBState where
  | FRESH
  | EXISTING
  deriving DecidableEq, Repr

/-- State of the value generator (class RandomGenerator): the pre-built data
buffer data_ and the cursor position pos_.  Buffer bytes are abstracted as
naturals; only their positions matter to the claims checked here. -/
structure RandomGenerator where
  data : List Nat
  pos : Nat
  deriving DecidableEq, Repr

/-- Translation of RandomGenerator::Generate, line by line: when pos_ + len would
run past the end of the buffer the cursor resets to 0 and the code asserts
len < data_.size() (a failed assert is modelled as the fatal result none);
then pos_ += len, and the returned slice is the byte range of length len
ending at the new pos_. -/
def RandomGenerator.Generate (g : RandomGenerator) (len : Nat) :
    Option (List Nat × RandomGenerator) :=
  if g.pos + len > g.data.length then
    if len < g.data.length then
      some (g.data.take len, ⟨g.data, len⟩)
    else
      none
  else
    some ((g.data.drop g.pos).take len, ⟨g.data, g.pos + len⟩)

/-- The character of the decimal digit d, so digitToChar 0 is the zero
character. -/
def digitToChar (d : Nat) : Char := Char.ofNat (48 + d)

/-- Models snprintf(key, sizeof(key), "%016d", k) for a nonnegative int k:
the decimal digits of k, most significant first, left-padded with zero
characters to a minimum field width of 16.  (Nat.digits 10 k is empty for
k = 0, and the padding then yields the same sixteen zero characters that
%016d prints.) -/
def formatKey (k : Nat) : String :=
  let ds := (Nat.digits 10 k).reverse.map digitToChar
  ⟨List.replicate (16 - ds.length) '0' ++ ds⟩

/-- One observable action of the benchmark.  dbWrite records the batch handed
to one DB::Write call as a list of (key, value length) pairs; warn is a line
on the diagnostic stream; exitProc is process termination with the given
status. -/
inductive Event where
  | destroyDB
  | openDB
  | dbWrite (batch : List (String × Nat))
  | dbGet (key : String)
  | iterRead (key : String)
  | flushMemtable
  | queryProperty (level : Nat)
  | compactRange (level : Nat) (lo hi : String)
  | heapDump
  | warn (msg : String)
  | exitProc (code : Nat)
  deriving DecidableEq, Repr

/-- Whether an event is a call into the storage engine. -/
def Event.isEngineOp : Event → Bool
  | .heapDump => false
  | .warn _ => false
  | .exitProc _ => false
  | _ => true

/-- Whether an event is a DB::Write call. -/
def Event.isDbWrite : Event → Bool
  | .dbWrite _ => true
  | _ => false

/-- Modelled from the spec: the responses of the external collaborators of
section 6 whose code is outside this source file.  rand is the stream of
values returned by successive rand_.Next() calls, writeOk whether the i-th
DB::Write status of the phase is ok, openOk whether a DB::Open performed by
the phase succeeds, entries the store's contents in the key order the
engine's bidirectional iterator yields them (key and value length), and
fileCount the engine's optional per-level num-files-at-level property value;
kNumLevels is the engine's config::kNumLevels. -/
structure Env where
  rand : Nat → Nat
  writeOk : Nat → Bool
  openOk : Bool
  entries : List (String × Nat)
  fileCount : Nat → Option Nat
  kNumLevels : Nat

/-- The key integer chosen at loop index i in Benchmark::Write: the loop
index itself in SEQUENTIAL order, rand_.Next() % FLAGS_num in RANDOM order. -/
def keyOf (order : Order) (rand : Nat → Nat) (flagsNum i : Nat) : Nat :=
  match order with
  | .SEQUENTIAL => i
  | .RANDOM => rand i % flagsNum

/-- The loop of Benchmark::Write, from loop index i with n iterations left.
Each iteration formats the key, puts the single key/value pair into the
cleared batch, issues DB::Write, adds value_size + strlen(key) to bytes_,
and on a non-ok status prints a put error and exits with status 1 (note the
code adds to bytes_ before checking the status).  The result is the event
list, the bytes added and whether the process exited. -/
def writeLoop (rand : Nat → Nat) (ok : Nat → Bool) (order : Order)
    (flagsNum valueSize : Nat) : Nat → Nat → List Event × Nat × Bool
  | _, 0 => ([], 0, false)
  | i, n + 1 =>
    let key := formatKey (keyOf order rand flagsNum i)
    let b := valueSize + key.length
    if ok i then
      let r := writeLoop rand ok order flagsNum valueSize (i + 1) n
      (Event.dbWrite [(key, valueSize)] :: r.1, b + r.2.1, r.2.2)
    else
      ([Event.dbWrite [(key, valueSize)], Event.warn "put error",
        Event.exitProc 1], b, true)

/-- Benchmark::Write: a FRESH phase first deletes the handle, destroys the
store and reopens it through Benchmark::Open, which prints an open error and
exits with status 1 when DB::Open fails; then the write loop runs from
index 0. -/
def writePhase (env : Env) (order : Order) (state : DBState)
    (flagsNum numEntries valueSize : Nat) : List Event × Nat × Bool :=
  match state with
  | .FRESH =>
    if env.openOk then
      let r := writeLoop env.rand env.writeOk order flagsNum valueSize 0 numEntries
      (Event.destroyDB :: Event.openDB :: r.1, r.2.1, r.2.2)
    else
      ([Event.destroyDB, Event.openDB, Event.warn "open error",
        Event.exitProc 1], 0, true)
  | .EXISTING =>
    writeLoop env.rand env.writeOk order flagsNum valueSize 0 numEntries

/-- The keys Benchmark::ReadSequential visits: SeekToFirst then Next while
both i < num_ and the iterator is valid, so the first min(num_, size) store
entries in order. -/
def readSequentialKeys (entries : List (String × Nat)) (num : Nat) :
    List String :=
  (entries.take num).map Prod.fst

/-- The keys Benchmark::ReadReverse visits: SeekToLast then Prev while both
i < num_ and the iterator is valid, so the last min(num_, size) store entries
in backward order. -/
def readReverseKeys (entries : List (String × Nat)) (num : Nat) :
    List String :=
  (entries.reverse.take num).map Prod.fst

/-- The max_level_with_files computation of Benchmark::Compact: starting from
1, scan levels 1 .. kNumLevels-1 in ascending order and remember the last
level whose num-files-at-level property query succeeds with a positive
count. -/
def maxLevelWithFiles (fileCount : Nat → Option Nat) (kNumLevels : Nat) : Nat :=
  (List.range' 1 (kNumLevels - 1)).foldl
    (fun acc level =>
      match fileCount level with
      | some v => if 0 < v then level else acc
      | none => acc)
    1

/-- Recursive restatement of maxLevelWithFiles, scanning levels 1 .. m. -/
def mlwfAux (fileCount : Nat → Option Nat) : Nat → Nat
  | 0 => 1
  | m + 1 =>
    match fileCount (m + 1) with
    | some v => if 0 < v then m + 1 else mlwfAux fileCount m
    | none => mlwfAux fileCount m

/-- A level reports at least one file: the property query succeeds with a
positive count. -/
def hasFilesAt (fileCount : Nat → Option Nat) (level : Nat) : Prop :=
  ∃ v, fileCount level = some v ∧ 0 < v

/-- Benchmark::Compact: flush the memtable, query the per-level file count
for levels 1 .. kNumLevels-1, then compact every level below
max_level_with_files over the full range from the empty string to the
sentinel upper bound. -/
def compactEvents (fileCount : Nat → Option Nat) (kNumLevels : Nat) :
    List Event :=
  Event.flushMemtable ::
    ((List.range' 1 (kNumLevels - 1)).map Event.queryProperty
      ++ (List.range (maxLevelWithFiles fileCount kNumLevels)).map
          (fun level => Event.compactRange level "" "~"))

/-- The phase names Benchmark::Run recognizes. -/
def recognizedNames : List String :=
  ["fillseq", "fillrandom", "overwrite", "fillsync", "fill100K",
   "readseq", "readreverse", "readrandom", "compact", "heapprofile"]

/-- The dispatch of Benchmark::Run for one phase name: an exact string match
against the recognized names selects the handler (fillsync additionally sets
the sync write option, which does not change the event structure recorded
here), and an unrecognized name emits the unknown-benchmark warning and does
nothing else.  The result is the phase's events and whether the process
exited. -/
def phaseRun (env : Env) (flagsNum valueSize : Nat) (name : String) :
    List Event × Bool :=
  if name = "fillseq" then
    let r := writePhase env Order.SEQUENTIAL DBState.FRESH flagsNum flagsNum valueSize
    (r.1, r.2.2)
  else if name = "fillrandom" then
    let r := writePhase env Order.RANDOM DBState.FRESH flagsNum flagsNum valueSize
    (r.1, r.2.2)
  else if name = "overwrite" then
    let r := writePhase env Order.RANDOM DBState.EXISTING flagsNum flagsNum valueSize
    (r.1, r.2.2)
  else if name = "fillsync" then
    let r := writePhase env Order.RANDOM DBState.FRESH flagsNum (flagsNum / 100) valueSize
    (r.1, r.2.2)
  else if name = "fill100K" then
    let r := writePhase env Order.RANDOM DBState.FRESH flagsNum (flagsNum / 1000) (100 * 1000)
    (r.1, r.2.2)
  else if name = "readseq" then
    ((readSequentialKeys env.entries flagsNum).map Event.iterRead, false)
  else if name = "readreverse" then
    ((readReverseKeys env.entries flagsNum).map Event.iterRead, false)
  else if name = "readrandom" then
    ((List.range flagsNum).map
      (fun i => Event.dbGet (formatKey (env.rand i % flagsNum))), false)
  else if name = "compact" then
    (compactEvents env.fileCount env.kNumLevels, false)
  else if name = "heapprofile" then
    ([Event.heapDump], false)
  else
    ([Event.warn ("unknown benchmark " ++ name)], false)

/-- The scheduling loop of Benchmark::Run over the remaining phase names, the
counter i selecting each phase's engine environment: a phase that exits the
process cuts the run short, otherwise the remaining phases follow it. -/
def runPhases (envs : Nat → Env) (flagsNum valueSize : Nat) :
    List String → Nat → List Event
  | [], _ => []
  | name :: rest, i =>
    let r := phaseRun (envs i) flagsNum valueSize name
    if r.2 then r.1 else r.1 ++ runPhases envs flagsNum valueSize rest (i + 1)

/-- Benchmark::Run: open the store once (an open error prints to stderr and
exits with status 1 before any phase runs), then schedule the listed phases
in order. -/
def runAll (envs : Nat → Env) (openOk0 : Bool) (flagsNum valueSize : Nat)
    (names : List String) : List Event :=
  if openOk0 then Event.openDB :: runPhases envs flagsNum valueSize names 0
  else [Event.openDB, Event.warn "open error", Event.exitProc 1]

/-- Benchmark::Stop: the operation count used in the micros/op division,
a recorded count below 1 being replaced by 1. -/
def stopEffectiveDone (done : Nat) : Nat := if done < 1 then 1 else done

/-- The micros/op figure Benchmark::Stop prints, with elapsed time modelled
as an exact rational count of microseconds. -/
def stopMicrosPerOp (elapsedMicros : Rat) (done : Nat) : Rat :=
  elapsedMicros / (stopEffectiveDone done : Rat)

/-- The message part of the summary line Benchmark::Stop prints: when bytes_
is positive the MB/s rate string is put in front of the message, or becomes
the whole message when the message was empty; otherwise the message is left
alone. -/
def stopFinalMessage (bytes : Int) (rate message : String) : String :=
  if 0 < bytes then
    (if message = "" then rate else rate ++ " " ++ message)
  else message

/-- The data of a formatted key, unfolded. -/
theorem formatKey_data (k : Nat) :
    (formatKey k).data =
      List.replicate (16 - ((Nat.digits 10 k).reverse.map digitToChar).length) '0'
        ++ (Nat.digits 10 k).reverse.map digitToChar := rfl

/-- A number below 10^16 has at most 16 decimal digits. -/
theorem digitsLen_le (m : Nat) (h : m < 10 ^ 16) :
    (Nat.digits 10 m).length ≤ 16 := by
  rcases Nat.eq_zero_or_pos m with h0 | h0
  · subst h0; simp
  · rw [Nat.digits_len 10 m (by norm_num) (Nat.pos_iff_ne_zero.mp h0)]
    have hlog := Nat.log_lt_of_lt_pow (Nat.pos_iff_ne_zero.mp h0) h
    omega

/-- Keys of numbers below 10^16 are exactly 16 characters wide. -/
theorem formatKey_length (k : Nat) (h : k < 10 ^ 16) :
    (formatKey k).length = 16 := by
  have hl := digitsLen_le k h
  show ((formatKey k).data).length = 16
  rw [formatKey_data]
  simp only [List.length_append, List.length_replicate, List.length_map,
    List.length_reverse]
  omega

/-- Decimal digit characters sort below the tilde sentinel. -/
theorem digitToChar_lt_tilde (d : Nat) (hd : d < 10) : digitToChar d < '~' := by
  interval_cases d <;> decide

/-- Every character of a formatted key sorts below the tilde sentinel. -/
theorem formatKey_chars_lt_tilde (k : Nat) :
    ∀ c ∈ (formatKey k).data, c < '~' := by
  intro c hc
  rw [formatKey_data] at hc
  rcases List.mem_append.mp hc with h | h
  · have hc0 := List.eq_of_mem_replicate h
    subst hc0; decide
  · rcases List.mem_map.mp h with ⟨d, hd, rfl⟩
    exact digitToChar_lt_tilde d
      (Nat.digits_lt_base (by norm_num) (List.mem_reverse.mp hd))

/-- A nonempty character list all of whose members sort below the tilde is
lexicographically below the one-character tilde list. -/
theorem charList_lt_tilde (l : List Char) (hne : l ≠ [])
    (h : ∀ c ∈ l, c < '~') : List.Lex (fun a b => a < b) l ['~'] := by
  cases l with
  | nil => exact absurd rfl hne
  | cons c cs => exact List.Lex.rel (h c (List.mem_cons_self c cs))

/-- Every formatted key of a number below 10^16 sorts strictly before the
sentinel upper bound used by Benchmark::Compact. -/
theorem formatKey_lt_sentinel (k : Nat) (h : k < 10 ^ 16) :
    formatKey k < "~" := by
  have hlen : ((formatKey k).data).length = 16 := formatKey_length k h
  rw [String.lt_iff_toList_lt]
  apply charList_lt_tilde
  · intro hnil
    have hnil' : (formatKey k).data = [] := hnil
    rw [hnil'] at hlen
    simp at hlen
  · exact formatKey_chars_lt_tilde k

/-- The foldl of Benchmark::Compact's scanning loop agrees with its recursive
restatement. -/
theorem maxLevelWithFiles_eq_aux (p : Nat → Option Nat) (k : Nat) :
    maxLevelWithFiles p k = mlwfAux p (k - 1) := by
  suffices h : ∀ m, (List.range' 1 m).foldl
      (fun acc level =>
        match p level with
        | some v => if 0 < v then level else acc
        | none => acc) 1 = mlwfAux p m by
    exact h (k - 1)
  intro m
  induction m with
  | zero => rfl
  | succ m ih =>
    rw [List.range'_1_concat, List.foldl_append, ih]
    simp only [List.foldl_cons, List.foldl_nil, Nat.add_comm 1 m]
    cases hp : p (m + 1) with
    | none => simp [mlwfAux, hp]
    | some v => simp [mlwfAux, hp]

/-- The scan result is at least 1, its initial value. -/
theorem mlwfAux_pos (p : Nat → Option Nat) (m : Nat) : 1 ≤ mlwfAux p m := by
  induction m with
  | zero => exact le_rfl
  | succ m ih =>
    cases hp : p (m + 1) with
    | none => simpa [mlwfAux, hp] using ih
    | some v =>
      by_cases hv : 0 < v
      · simp [mlwfAux, hp, hv]
      · simpa [mlwfAux, hp, hv] using ih

/-- The scan result is 1 or a scanned level. -/
theorem mlwfAux_le (p : Nat → Option Nat) (m : Nat) :
    mlwfAux p m = 1 ∨ mlwfAux p m ≤ m := by
  induction m with
  | zero => exact Or.inl rfl
  | succ m ih =>
    cases hp : p (m + 1) with
    | none =>
      simp only [mlwfAux, hp]
      rcases ih with h | h
      exacts [Or.inl h, Or.inr (by omega)]
    | some v =>
      by_cases hv : 0 < v
      · simp [mlwfAux, hp, hv]
      · simp only [mlwfAux, hp, hv, if_false]
        rcases ih with h | h
        exacts [Or.inl h, Or.inr (by omega)]

/-- Every scanned level reporting files is at or below the scan result. -/
theorem mlwfAux_ge_of_hasFiles (p : Nat → Option Nat) (m : Nat) :
    ∀ l, 1 ≤ l → l ≤ m → hasFilesAt p l → l ≤ mlwfAux p m := by
  induction m with
  | zero => intro l h1 h0 _; omega
  | succ m ih =>
    intro l h1 hm hf
    rcases Nat.lt_or_ge l (m + 1) with hlt | hge
    · have hrec := ih l h1 (by omega) hf
      cases hp : p (m + 1) with
      | none => simpa [mlwfAux, hp] using hrec
      | some v =>
        by_cases hv : 0 < v
        · simp only [mlwfAux, hp, hv, if_true]
          omega
        · simpa [mlwfAux, hp, hv] using hrec
    · have hl : l = m + 1 := by omega
      subst hl
      rcases hf with ⟨v, hv, hvpos⟩
      simp [mlwfAux, hv, hvpos]

/-- The scan result is 1 or a scanned level that reports files. -/
theorem mlwfAux_spec (p : Nat → Option Nat) (m : Nat) :
    mlwfAux p m = 1 ∨ (mlwfAux p m ≤ m ∧ hasFilesAt p (mlwfAux p m)) := by
  induction m with
  | zero => exact Or.inl rfl
  | succ m ih =>
    cases hp : p (m + 1) with
    | none =>
      simp only [mlwfAux, hp]
      rcases ih with h | ⟨h1, h2⟩
      exacts [Or.inl h, Or.inr ⟨by omega, h2⟩]
    | some v =>
      by_cases hv : 0 < v
      · simp only [mlwfAux, hp, hv, if_true]
        exact Or.inr ⟨le_rfl, ⟨v, hp, hv⟩⟩
      · simp only [mlwfAux, hp, hv, if_false]
        rcases ih with h | ⟨h1, h2⟩
        exacts [Or.inl h, Or.inr ⟨by omega, h2⟩]

/-- With every write status ok, the write loop from index i with n iterations
left issues one single-key batched write per loop index, in index order. -/
theorem writeLoop_ok_events (rand : Nat → Nat) (ok : Nat → Bool) (order : Order)
    (f v : Nat) (hok : ∀ i, ok i = true) :
    ∀ n i, (writeLoop rand ok order f v i n).1 =
      (List.range' i n).map
        (fun j => Event.dbWrite [(formatKey (keyOf order rand f j), v)]) := by
  intro n
  induction n with
  | zero => intro i; rfl
  | succ n ih =>
    intro i
    simp [writeLoop, hok i, List.range'_succ, ih (i + 1)]

/-- With every write status ok and every generated key 16 characters wide,
the write loop adds n * (value size + 16) to the byte counter. -/
theorem writeLoop_ok_bytes (rand : Nat → Nat) (ok : Nat → Bool) (order : Order)
    (f v : Nat) (hok : ∀ i, ok i = true) :
    ∀ n i, (∀ j, i ≤ j → j < i + n →
        (formatKey (keyOf order rand f j)).length = 16) →
      (writeLoop rand ok order f v i n).2.1 = n * (v + 16) := by
  intro n
  induction n with
  | zero => intro i _; simp [writeLoop]
  | succ n ih =>
    intro i h
    have hkey : (formatKey (keyOf order rand f i)).length = 16 :=
      h i le_rfl (by omega)
    have hrec := ih (i + 1) (fun j hj1 hj2 => h j (by omega) (by omega))
    simp [writeLoop, hok i, hkey, hrec]
    ring

/-- When the j-th write status (relative to the start index) is the first
non-ok one and the loop has more than j iterations left, the loop issues the
writes up to and including the failing one exactly once each, prints the put
error and exits with status 1 — nothing follows the exit. -/
theorem writeLoop_fail_events (rand : Nat → Nat) (ok : Nat → Bool)
    (order : Order) (f v : Nat) :
    ∀ j n i, ok (i + j) = false → (∀ m, m < j → ok (i + m) = true) → j < n →
      (writeLoop rand ok order f v i n).1 =
        (List.range' i (j + 1)).map
          (fun m => Event.dbWrite [(formatKey (keyOf order rand f m), v)])
          ++ [Event.warn "put error", Event.exitProc 1]
        ∧ (writeLoop rand ok order f v i n).2.2 = true := by
  intro j
  induction j with
  | zero =>
    intro n i hj _ hn
    cases n with
    | zero => omega
    | succ n =>
      rw [Nat.add_zero] at hj
      refine ⟨?_, ?_⟩
      · simp [writeLoop, hj, List.range'_succ]
      · simp [writeLoop, hj]
  | succ j ih =>
    intro n i hj hlt hn
    cases n with
    | zero => omega
    | succ n =>
      have h0 : ok i = true := by
        have := hlt 0 (by omega)
        simpa using this
      have hj' : ok ((i + 1) + j) = false := by
        rw [show (i + 1) + j = i + (j + 1) by omega]
        exact hj
      have hlt' : ∀ m, m < j → ok ((i + 1) + m) = true := by
        intro m hm
        rw [show (i + 1) + m = i + (m + 1) by omega]
        exact hlt (m + 1) (by omega)
      have hrec := ih n (i + 1) hj' hlt' (by omega)
      refine ⟨?_, ?_⟩
      · simp [writeLoop, h0, List.range'_succ, hrec.1]
      · simp [writeLoop, h0, hrec.2]

/-- Every batch a write-loop DB::Write event carries is a single key/value
pair whose key is the formatted key of the loop index's key integer,
whatever the write statuses are. -/
theorem writeLoop_dbWrite_mem (rand : Nat → Nat) (ok : Nat → Bool)
    (order : Order) (f v : Nat) :
    ∀ n i e, e ∈ (writeLoop rand ok order f v i n).1 →
      ∀ b, e = Event.dbWrite b →
        ∃ m, i ≤ m ∧ m < i + n ∧
          b = [(formatKey (keyOf order rand f m), v)] := by
  intro n
  induction n with
  | zero =>
    intro i e he
    simp [writeLoop] at he
  | succ n ih =>
    intro i e he b hb
    subst hb
    by_cases hok : ok i = true
    · simp [writeLoop, hok] at he
      rcases he with he | he
      · exact ⟨i, le_rfl, by omega, he⟩
      · rcases ih (i + 1) _ he b rfl with ⟨m, hm1, hm2, hm3⟩
        exact ⟨m, by omega, by omega, hm3⟩
    · simp [writeLoop, hok] at he
      exact ⟨i, le_rfl, by omega, he⟩

/-- Shape of every successful Generate call: the buffer is untouched, the
cursor resets exactly when the old position plus the length passes the end
and then advances by the length, and the returned slice is the full-length
byte range ending at the new cursor. -/
theorem generate_some_spec (g : RandomGenerator) (len : Nat) (s : List Nat)
    (g' : RandomGenerator) (h : RandomGenerator.Generate g len = some (s, g')) :
    g'.data = g.data
    ∧ g'.pos = (if g.pos + len > g.data.length then 0 else g.pos) + len
    ∧ len ≤ g'.pos ∧ g'.pos ≤ g.data.length
    ∧ s = (g.data.drop (g'.pos - len)).take len ∧ s.length = len := by
  unfold RandomGenerator.Generate at h
  by_cases h1 : g.pos + len > g.data.length
  · by_cases h2 : len < g.data.length
    · rw [if_pos h1, if_pos h2] at h
      have hs : g.data.take len = s ∧ (⟨g.data, len⟩ : RandomGenerator) = g' := by
        simpa using h
      rcases hs with ⟨hs, hg'⟩
      subst hg'
      refine ⟨rfl, by simp [h1], by simp, by simpa using Nat.le_of_lt h2, ?_, ?_⟩
      · simp [hs.symm]
      · rw [hs.symm]
        simp
        omega
    · rw [if_pos h1, if_neg h2] at h
      exact absurd h (by simp)
  · rw [if_neg h1] at h
    have hs : (g.data.drop g.pos).take len = s
        ∧ (⟨g.data, g.pos + len⟩ : RandomGenerator) = g' := by
      simpa using h
    rcases hs with ⟨hs, hg'⟩
    subst hg'
    refine ⟨rfl, by simp [h1], by simp, by simp; omega, ?_, ?_⟩
    · simp [hs.symm]
    · rw [hs.symm]
      simp
      omega

/-- Generate succeeds exactly when no reset is needed or the requested
length is strictly below the buffer size. -/
theorem generate_isSome_iff (g : RandomGenerator) (len : Nat) :
    (RandomGenerator.Generate g len).isSome = true ↔
      (g.pos + len ≤ g.data.length ∨ len < g.data.length) := by
  unfold RandomGenerator.Generate
  split_ifs with h1 h2 <;> simp <;> omega

/-- Claim C2 (amended): the Generate contract of the data generator.  The cursor
resets to zero when the current position plus the requested length would
pass the end of the buffer; a successful call returns a slice of exactly the
requested length ending at the cursor advanced by that length.  The call
fails fatally whenever the length exceeds the buffer's total size and
succeeds for every length strictly below it; at length exactly the buffer's
total size it succeeds precisely when the cursor needs no reset, that is
when the cursor is at zero. -/
theorem C2_generate (g : RandomGenerator) (len : Nat) :
    (len > g.data.length → RandomGenerator.Generate g len = none)
    ∧ (len < g.data.length → (RandomGenerator.Generate g len).isSome = true)
    ∧ ((RandomGenerator.Generate g len).isSome = true ↔
        (g.pos + len ≤ g.data.length ∨ len < g.data.length))
    ∧ (∀ s g', RandomGenerator.Generate g len = some (s, g') →
        g'.data = g.data
        ∧ g'.pos = (if g.pos + len > g.data.length then 0 else g.pos) + len
        ∧ s = (g.data.drop (g'.pos - len)).take len
        ∧ s.length = len) := by
  refine ⟨?_, ?_, generate_isSome_iff g len, ?_⟩
  · intro hgt
    have hiff := generate_isSome_iff g len
    cases hcase : RandomGenerator.Generate g len with
    | none => rfl
    | some p =>
      have : g.pos + len ≤ g.data.length ∨ len < g.data.length := by
        apply hiff.mp
        rw [hcase]
        rfl
      omega
  · intro hlt
    exact (generate_isSome_iff g len).mpr (Or.inr hlt)
  · intro s g' h
    have := generate_some_spec g len s g' h
    exact ⟨this.1, this.2.1, this.2.2.2.2.1, this.2.2.2.2.2⟩

/-- Claim C2 counterexample: with a five-byte buffer and cursor position 3 — a
state reached from a fresh generator by one successful Generate 3 — the call
Generate 5 requests no more than the buffer's total size, yet it triggers
the reset branch and fails the assert len < data_.size() fatally; this
refutes the claim that every length up to and including the buffer's total
size succeeds. -/
theorem C2_counterexample :
    (RandomGenerator.Generate ⟨[0, 1, 2, 3, 4], 0⟩ 3).map Prod.snd
        = some ⟨[0, 1, 2, 3, 4], 3⟩
    ∧ (5 : Nat) ≤ ([0, 1, 2, 3, 4] : List Nat).length
    ∧ RandomGenerator.Generate ⟨[0, 1, 2, 3, 4], 3⟩ 5 = none := by
  refine ⟨rfl, by decide, rfl⟩

/-- Claim C2 witness: a request strictly below the buffer size succeeds from a
nonzero cursor. -/
theorem C2_generate_witness :
    (RandomGenerator.Generate ⟨[7, 8, 9], 1⟩ 2).isSome = true :=
  (C2_generate ⟨[7, 8, 9], 1⟩ 2).2.1 (by decide)

/-- Claim C10: a successful Generate call leaves the buffer's contents and length
untouched and afterwards the cursor lies between the requested length and
the buffer length; the returned slice is exactly the byte range from
cursor - length to the cursor, has exactly the requested length, and lies
entirely within the buffer. -/
theorem C10_generate_invariant (g g' : RandomGenerator) (len : Nat)
    (s : List Nat) (h : RandomGenerator.Generate g len = some (s, g')) :
    len ≤ g'.pos ∧ g'.pos ≤ g.data.length ∧ g'.data = g.data
    ∧ s = (g'.data.drop (g'.pos - len)).take len ∧ s.length = len := by
  have hspec := generate_some_spec g len s g' h
  refine ⟨hspec.2.2.1, hspec.2.2.2.1, hspec.1, ?_, hspec.2.2.2.2.2⟩
  rw [hspec.1]
  exact hspec.2.2.2.2.1

/-- Claim C10 witness: the invariant at a concrete successful call. -/
theorem C10_generate_invariant_witness :
    ([1, 2] : List Nat)
      = ((([1, 2, 3] : List Nat).drop (2 - 2)).take 2) :=
  (C10_generate_invariant ⟨[1, 2, 3], 0⟩ ⟨[1, 2, 3], 2⟩ 2 [1, 2] rfl).2.2.2.1

/-- Every DB::Write batch of a write phase, whatever the statuses, is a
single key/value pair keyed by the formatted key of some key integer of the
phase's order. -/
theorem writePhase_dbWrite_mem (env : Env) (order : Order) (state : DBState)
    (f n v : Nat) :
    ∀ e ∈ (writePhase env order state f n v).1, ∀ b, e = Event.dbWrite b →
      ∃ m, m < n ∧ b = [(formatKey (keyOf order env.rand f m), v)] := by
  intro e he b hb
  subst hb
  cases state with
  | FRESH =>
    by_cases ho : env.openOk
    · simp [writePhase, ho] at he
      rcases writeLoop_dbWrite_mem env.rand env.writeOk order f v n 0
          _ he b rfl with ⟨m, _, hm2, hm3⟩
      exact ⟨m, by omega, hm3⟩
    · simp [writePhase, ho] at he
  | EXISTING =>
    rcases writeLoop_dbWrite_mem env.rand env.writeOk order f v n 0
        _ he b rfl with ⟨m, _, hm2, hm3⟩
    exact ⟨m, by omega, hm3⟩

/-- A fixed environment used to instantiate witnesses: every write status
ok, opens succeed, an empty store, no per-level property values, seven
levels. -/
def envA : Env :=
  ⟨fun _ => 0, fun _ => true, true, [], fun _ => none, 7⟩

/-- Claim C1: for every configured entry count N (a nonnegative int, hence below
2^31) and value size v, a sequential fill phase whose reopen and writes all
succeed issues exactly N single-key batched writes, the i-th write carrying
the zero-padded decimal key of i — exactly 16 characters wide — in the
order i = 0, 1, ..., N-1. -/
theorem C1_fillseq_writes (env : Env) (N v : Nat)
    (hok : ∀ i, env.writeOk i = true) (hopen : env.openOk = true)
    (hN : N < 2 ^ 31) :
    (phaseRun env N v "fillseq").1 =
      Event.destroyDB :: Event.openDB ::
        (List.range N).map (fun i => Event.dbWrite [(formatKey i, v)])
    ∧ ((List.range N).map (fun i => Event.dbWrite [(formatKey i, v)])).length = N
    ∧ (∀ i, i < N → (formatKey i).length = 16) := by
  refine ⟨?_, by simp, ?_⟩
  · have hevents := writeLoop_ok_events env.rand env.writeOk Order.SEQUENTIAL
      N v hok N 0
    simp only [phaseRun, writePhase, hopen, if_pos, if_true, reduceIte]
    rw [hevents, List.range_eq_range']
    rfl
  · intro i hi
    have hpow : (2 : Nat) ^ 31 < 10 ^ 16 := by norm_num
    exact formatKey_length i (by omega)

/-- Claim C1 witness: a three-entry sequential fill in the all-ok environment. -/
theorem C1_fillseq_writes_witness :
    (phaseRun envA 3 7 "fillseq").1 =
      Event.destroyDB :: Event.openDB ::
        (List.range 3).map (fun i => Event.dbWrite [(formatKey i, 7)]) :=
  (C1_fillseq_writes envA 3 7 (fun _ => rfl) rfl (by norm_num)).1

/-- Claim C3: with a positive configured entry count FLAGS_num, every DB::Write
batch of the random-order write phases fillrandom, overwrite, fillsync and
fill100K — including the subset phases writing only FLAGS_num/100 or
FLAGS_num/1000 entries — carries a single key whose key integer is a draw
reduced modulo FLAGS_num, hence lies in [0, FLAGS_num); in sequential order
the key integer equals the loop index. -/
theorem C3_random_keys_bounded (env : Env) (f v : Nat) (hf : 0 < f)
    (name : String)
    (hname : name ∈ (["fillrandom", "overwrite", "fillsync",
      "fill100K"] : List String)) :
    (∀ e ∈ (phaseRun env f v name).1, ∀ b, e = Event.dbWrite b →
      ∃ k w, k < f ∧ b = [(formatKey k, w)])
    ∧ (∀ i, keyOf Order.RANDOM env.rand f i = env.rand i % f
        ∧ env.rand i % f < f)
    ∧ (∀ i, keyOf Order.SEQUENTIAL env.rand f i = i) := by
  refine ⟨?_, fun i => ⟨rfl, Nat.mod_lt _ hf⟩, fun i => rfl⟩
  have hbound : ∀ (st : DBState) (n w : Nat),
      ∀ e ∈ (writePhase env Order.RANDOM st f n w).1, ∀ b, e = Event.dbWrite b →
        ∃ k kw, k < f ∧ b = [(formatKey k, kw)] := by
    intro st n w e he b hb
    rcases writePhase_dbWrite_mem env Order.RANDOM st f n w e he b hb
      with ⟨m, _, hm⟩
    exact ⟨env.rand m % f, w, Nat.mod_lt _ hf, hm⟩
  fin_cases hname
  · simpa only [phaseRun, reduceIte] using hbound DBState.FRESH f v
  · simpa only [phaseRun, reduceIte] using hbound DBState.EXISTING f v
  · simpa only [phaseRun, reduceIte] using hbound DBState.FRESH (f / 100) v
  · simpa only [phaseRun, reduceIte] using hbound DBState.FRESH (f / 1000) (100 * 1000)

/-- Claim C3 witness: the bounded draw at a concrete index in the all-ok
environment. -/
theorem C3_random_keys_bounded_witness :
    keyOf Order.RANDOM envA.rand 5 3 = envA.rand 3 % 5 ∧ envA.rand 3 % 5 < 5 :=
  (C3_random_keys_bounded envA 5 7 (by decide) "fillsync" (by decide)).2.1 3

/-- Claim C9: a write phase of n entries with value size v whose reopen and writes
all succeed accumulates exactly n * (v + 16) bytes, every key of a key
integer below a 32-bit FLAGS_num being exactly 16 characters long. -/
theorem C9_write_bytes (env : Env) (order : Order) (state : DBState)
    (f v n : Nat) (hok : ∀ i, env.writeOk i = true)
    (hopen : env.openOk = true) (hf : 0 < f) (hf31 : f < 2 ^ 31)
    (hn : n ≤ f) :
    (writePhase env order state f n v).2.1 = n * (v + 16) := by
  have hpow : (2 : Nat) ^ 31 < 10 ^ 16 := by norm_num
  have hb : (writeLoop env.rand env.writeOk order f v 0 n).2.1 = n * (v + 16) := by
    apply writeLoop_ok_bytes env.rand env.writeOk order f v hok n 0
    intro j hj0 hjn
    apply formatKey_length
    cases order with
    | SEQUENTIAL =>
      simp only [keyOf]
      omega
    | RANDOM =>
      simp only [keyOf]
      have := Nat.mod_lt (env.rand j) hf
      omega
  cases state with
  | FRESH => simp [writePhase, hopen, hb]
  | EXISTING => exact hb

/-- Claim C9 witness: three sequential writes of 10-byte values accumulate
3 * 26 bytes. -/
theorem C9_write_bytes_witness :
    (writePhase envA Order.SEQUENTIAL DBState.FRESH 5 3 10).2.1 = 3 * (10 + 16) :=
  C9_write_bytes envA Order.SEQUENTIAL DBState.FRESH 5 10 3 (fun _ => rfl) rfl
    (by decide) (by norm_num) (by decide)

/-- Claim C4: the compaction phase leads with the memtable flush; it queries the
per-level file-count property exactly for the levels 1 .. kNumLevels-1;
max_level_with_files starts at 1, bounds from above every queried level
reporting at least one file and is either 1 or itself such a level; and a
full-range compaction — empty-string lower bound, tilde sentinel upper
bound — is requested exactly for the levels 0 up to but excluding
max_level_with_files, the sentinel sorting after every real key. -/
theorem C4_compact (p : Nat → Option Nat) (k : Nat) :
    (compactEvents p k).head? = some Event.flushMemtable
    ∧ (∀ l, Event.queryProperty l ∈ compactEvents p k ↔ (1 ≤ l ∧ l < k))
    ∧ 1 ≤ maxLevelWithFiles p k
    ∧ (∀ l, 1 ≤ l → l < k → hasFilesAt p l → l ≤ maxLevelWithFiles p k)
    ∧ (maxLevelWithFiles p k = 1
        ∨ (maxLevelWithFiles p k < k ∧ hasFilesAt p (maxLevelWithFiles p k)))
    ∧ (∀ l lo hi, Event.compactRange l lo hi ∈ compactEvents p k ↔
        (l < maxLevelWithFiles p k ∧ lo = "" ∧ hi = "~"))
    ∧ (∀ m, m < 10 ^ 16 → formatKey m < "~") := by
  refine ⟨rfl, ?_, ?_, ?_, ?_, ?_, fun m hm => formatKey_lt_sentinel m hm⟩
  · intro l
    simp only [compactEvents, List.mem_cons, List.mem_append, List.mem_map,
      List.mem_range'_1, List.mem_range]
    constructor
    · rintro (h | ⟨a, ⟨ha1, ha2⟩, ha3⟩ | ⟨a, _, ha3⟩)
      · exact absurd h (by simp)
      · cases ha3
        omega
      · exact absurd ha3 (by simp)
    · intro ⟨h1, h2⟩
      exact Or.inr (Or.inl ⟨l, ⟨by omega, by omega⟩, rfl⟩)
  · rw [maxLevelWithFiles_eq_aux]
    exact mlwfAux_pos p (k - 1)
  · intro l h1 hk hf
    rw [maxLevelWithFiles_eq_aux]
    exact mlwfAux_ge_of_hasFiles p (k - 1) l h1 (by omega) hf
  · rw [maxLevelWithFiles_eq_aux]
    rcases mlwfAux_spec p (k - 1) with h | ⟨h1, h2⟩
    · exact Or.inl h
    · have hpos := mlwfAux_pos p (k - 1)
      exact Or.inr ⟨by omega, h2⟩
  · intro l lo hi
    simp only [compactEvents, List.mem_cons, List.mem_append, List.mem_map,
      List.mem_range'_1, List.mem_range]
    constructor
    · rintro (h | ⟨a, _, ha3⟩ | ⟨a, ha1, ha3⟩)
      · exact absurd h (by simp)
      · exact absurd ha3 (by simp)
      · cases ha3
        exact ⟨ha1, rfl, rfl⟩
    · rintro ⟨h1, rfl, rfl⟩
      exact Or.inr (Or.inr ⟨l, h1, rfl⟩)

/-- Claim C4 witness: the characterization at a concrete property map reporting
files at level 2 among seven levels. -/
theorem C4_compact_witness :
    Event.compactRange 1 "" "~"
        ∈ compactEvents (fun l => if l = 2 then some 3 else some 0) 7 := by
  apply ((C4_compact (fun l => if l = 2 then some 3 else some 0)
      7).2.2.2.2.2.1 1 "" "~").mpr
  refine ⟨?_, rfl, rfl⟩
  have hge := (C4_compact (fun l => if l = 2 then some 3 else some 0)
      7).2.2.2.1 2 (by decide) (by decide) ⟨3, by decide, by decide⟩
  omega

/-- Claim C5 counterexample: over a store of two entries with configured entry
count 1, read-sequential visits only the first key while read-reverse
visits only the second, so the two phases visit different key sets and the
read-reverse sequence is not the reversal of the read-sequential one. -/
theorem C5_counterexample :
    readSequentialKeys [("a", 1), ("b", 1)] 1 = ["a"]
    ∧ readReverseKeys [("a", 1), ("b", 1)] 1 = ["b"]
    ∧ readReverseKeys [("a", 1), ("b", 1)] 1
        ≠ (readSequentialKeys [("a", 1), ("b", 1)] 1).reverse
    ∧ ¬ (∀ s, s ∈ readSequentialKeys [("a", 1), ("b", 1)] 1 ↔
          s ∈ readReverseKeys [("a", 1), ("b", 1)] 1) := by
  refine ⟨rfl, rfl, by decide, fun hset => ?_⟩
  have := (hset "a").mp (by decide)
  exact absurd this (by decide)

/-- Claim C5 (amended): provided the unmodified store holds at most the
configured entry count of entries — true of every store this harness
builds, all of whose keys lie in [0, FLAGS_num) — read-sequential and
read-reverse visit the identical key set and the read-reverse sequence is
the exact reversal of the read-sequential one; each visits
min(entry count, store size) entries, read-sequential the first ones
forward and read-reverse the last ones backward. -/
theorem C5_read_reverse (entries : List (String × Nat)) (num : Nat)
    (h : entries.length ≤ num) :
    readReverseKeys entries num = (readSequentialKeys entries num).reverse
    ∧ (∀ s, s ∈ readSequentialKeys entries num ↔
        s ∈ readReverseKeys entries num)
    ∧ (readSequentialKeys entries num).length = min num entries.length
    ∧ (readReverseKeys entries num).length = min num entries.length := by
  have h1 : entries.take num = entries := List.take_of_length_le h
  have h2 : entries.reverse.take num = entries.reverse :=
    List.take_of_length_le (by simpa using h)
  refine ⟨?_, ?_, ?_, ?_⟩
  · rw [readReverseKeys, readSequentialKeys, h1, h2, List.map_reverse]
  · intro s
    rw [readSequentialKeys, readReverseKeys, h1, h2, List.map_reverse]
    exact (List.mem_reverse).symm
  · rw [readSequentialKeys]
    simp [List.length_take]
  · rw [readReverseKeys]
    simp [List.length_take]

/-- Claim C5 witness: the amended statement over a concrete two-entry store read
with entry count 2. -/
theorem C5_read_reverse_witness :
    readReverseKeys [("a", 1), ("b", 2)] 2
      = (readSequentialKeys [("a", 1), ("b", 2)] 2).reverse :=
  (C5_read_reverse [("a", 1), ("b", 2)] 2 (by decide)).1

/-- Claim C6: when a phase stops, the operation count used for the micros/op
division is the recorded count with zero replaced by one — hence never
zero — and the reported figure is elapsed microseconds divided by that
count; the MB/s rate string becomes part of the summary message exactly
when the accumulated byte counter is strictly positive, the message being
left unchanged otherwise. -/
theorem C6_stop (elapsedMicros : Rat) (done : Nat) (bytes : Int)
    (rate message : String) :
    stopEffectiveDone done = max done 1
    ∧ 0 < stopEffectiveDone done
    ∧ stopMicrosPerOp elapsedMicros done
        = elapsedMicros / ((max done 1 : Nat) : Rat)
    ∧ (0 < bytes → ∃ rest, stopFinalMessage bytes rate message = rate ++ rest)
    ∧ (bytes ≤ 0 → stopFinalMessage bytes rate message = message) := by
  have hmax : stopEffectiveDone done = max done 1 := by
    rw [stopEffectiveDone]
    split_ifs <;> omega
  refine ⟨hmax, ?_, by rw [stopMicrosPerOp, hmax], ?_, ?_⟩
  · rw [hmax]
    omega
  · intro hb
    by_cases hm : message = ""
    · refine ⟨"", ?_⟩
      rw [stopFinalMessage, if_pos hb, if_pos hm]
      simp
    · refine ⟨" " ++ message, ?_⟩
      rw [stopFinalMessage, if_pos hb, if_neg hm, String.append_assoc]
  · intro hb
    rw [stopFinalMessage, if_neg (by omega)]

/-- Claim C6 witness: a zero recorded count still divides by a positive count. -/
theorem C6_stop_witness : 0 < stopEffectiveDone 0 :=
  (C6_stop 5 0 3 "r" "").2.1

/-- Claim C7: a failed initial DB::Open reports the open error on the diagnostic
stream and exits with status 1 before any phase produces an event; the
first non-ok write status makes the write loop issue that write exactly
once, print the put error and exit with status 1 — no retry, no further
write — and a phase that exited cuts the scheduling short: none of the
remaining phases runs. -/
theorem C7_failures_fatal (envs : Nat → Env) (f v : Nat) (names : List String)
    (rand : Nat → Nat) (ok : Nat → Bool) (order : Order) (n j i : Nat)
    (name : String) (rest : List String)
    (hj : ok j = false) (hlt : ∀ m, m < j → ok m = true) (hjn : j < n) :
    runAll envs false f v names
      = [Event.openDB, Event.warn "open error", Event.exitProc 1]
    ∧ (writeLoop rand ok order f v 0 n).1 =
        (List.range (j + 1)).map
          (fun m => Event.dbWrite [(formatKey (keyOf order rand f m), v)])
          ++ [Event.warn "put error", Event.exitProc 1]
    ∧ (writeLoop rand ok order f v 0 n).2.2 = true
    ∧ ((phaseRun (envs i) f v name).2 = true →
        runPhases envs f v (name :: rest) i = (phaseRun (envs i) f v name).1) := by
  have hfail := writeLoop_fail_events rand ok order f v j n 0
    (by simpa using hj) (fun m hm => by simpa using hlt m hm) hjn
  refine ⟨by rw [runAll]; rfl, ?_, hfail.2, ?_⟩
  · rw [List.range_eq_range']
    exact hfail.1
  · intro hex
    rw [runPhases]
    simp only [hex, if_true, reduceIte]

/-- Claim C7 witness: with ok statuses only at index 0, a two-iteration write
loop issues the two writes, warns and exits with status 1. -/
theorem C7_failures_fatal_witness :
    runAll (fun _ => envA) false 5 7 ["fillseq"]
      = [Event.openDB, Event.warn "open error", Event.exitProc 1] :=
  (C7_failures_fatal (fun _ => envA) 5 7 ["fillseq"] (fun _ => 0)
    (fun m => m == 0) Order.RANDOM 2 1 0 "overwrite" [] (by decide)
    (by decide) (by decide)).1

/-- Claim C8: a phase name matching no recognized phase identifier produces
exactly the unknown-benchmark warning on the diagnostic stream — no
storage-engine operation at all — and does not end the run: the remaining
phases are scheduled after it unchanged. -/
theorem C8_unknown_phase (env : Env) (envs : Nat → Env) (f v i : Nat)
    (name : String) (rest : List String) (h : name ∉ recognizedNames) :
    phaseRun env f v name
      = ([Event.warn ("unknown benchmark " ++ name)], false)
    ∧ (∀ e ∈ (phaseRun env f v name).1, e.isEngineOp = false)
    ∧ runPhases envs f v (name :: rest) i
        = Event.warn ("unknown benchmark " ++ name)
          :: runPhases envs f v rest (i + 1) := by
  simp only [recognizedNames, List.mem_cons, List.not_mem_nil, or_false,
    not_or] at h
  obtain ⟨h1, h2, h3, h4, h5, h6, h7, h8, h9, h10⟩ := h
  have hrun : ∀ e : Env, phaseRun e f v name
      = ([Event.warn ("unknown benchmark " ++ name)], false) := by
    intro e
    rw [phaseRun, if_neg h1, if_neg h2, if_neg h3, if_neg h4, if_neg h5,
      if_neg h6, if_neg h7, if_neg h8, if_neg h9, if_neg h10]
  refine ⟨hrun env, ?_, ?_⟩
  · rw [hrun env]
    intro e he
    simp only [List.mem_singleton] at he
    subst he
    rfl
  · rw [runPhases, hrun (envs i)]
    rfl

/-- Claim C8 witness: the meta name sync, which this driver does not implement,
is warned about and skipped while the following phase still runs. -/
theorem C8_unknown_phase_witness :
    phaseRun envA 5 7 "sync"
      = ([Event.warn ("unknown benchmark " ++ "sync")], false) :=
  (C8_unknown_phase envA (fun _ => envA) 5 7 0 "sync" [] (by decide)).1

end DbBench
